import Mathlib

/-!
Verification of the clock deviation utility (deviation_average.c).

The repository keeps a fixed-capacity circular history of signed clock
deviation samples together with incrementally maintained aggregates
(misses, out_of_sync_sum, total_sum).  On every new sample,
more_than_half_do_sync evicts the oldest entry's contribution, applies
the new entry's contribution, inserts the sample into the ring, and, if
more than half of the history is out of range, returns the truncating
integer-division average of the out-of-range samples.

Machine integers (C long / int64_t) are modelled as unbounded Int, as
the claims assume exact integer arithmetic.  C's truncating signed
division is Int.tdiv; a division whose divisor would be zero (undefined
behaviour in C) is modelled as the value none.
-/

/-- Modelled from the spec: the DeviationHistory structure from the
missing deviation_history.h - a caller-owned contiguous buffer of
signed integer samples, a fixed capacity (size), and an insertion
cursor (index of the next slot to overwrite, wrapping modulo
capacity). -/
structure DeviationHistory where
  buffer : List Int
  size : Nat
  cursor : Nat
deriving DecidableEq, Inhabited

/-- Modelled from the spec: deviation_history_reset from the missing
deviation_history module - binds the caller-supplied storage and
capacity and sets the cursor to 0.  The buffer contents are whatever
the memory previously held (reset does not clear them). -/
def deviation_history_reset (history_addr : List Int) (history_size : Nat) :
    DeviationHistory :=
  { buffer := history_addr, size := history_size, cursor := 0 }

/-- Modelled from the spec: deviation_history_get_last from the missing
deviation_history module - returns the value currently occupying the
slot the next insertion will overwrite (the slot at the cursor). -/
def deviation_history_get_last (h : DeviationHistory) : Int :=
  h.buffer.getD h.cursor 0

/-- Modelled from the spec: deviation_history_insert from the missing
deviation_history module - writes the sample into the slot identified
by the cursor, then advances the cursor by one position modulo the
capacity. -/
def deviation_history_insert (h : DeviationHistory) (sample : Int) :
    DeviationHistory :=
  { h with buffer := h.buffer.set h.cursor sample,
           cursor := (h.cursor + 1) % h.size }

/-- Modelled from the spec: struct sync from the missing
more_than_half.h - a DeviationHistory plus half_history_size
(capacity / 2), the max_deviation threshold, and the running aggregates
misses, out_of_sync_sum and total_sum. -/
structure Sync where
  deviation_history : DeviationHistory
  half_history_size : Int
  max_deviation : Int
  misses : Int
  out_of_sync_sum : Int
  total_sum : Int
deriving DecidableEq, Inhabited

/-- more_than_half_do_sync from deviation_average.c.  Returns the
updated state paired with the returned correction; the correction is
none exactly when the C code would divide by zero (undefined
behaviour).  labs() is the absolute value on Int. -/
def more_than_half_do_sync (s : Sync) (deviation : Int) : Sync × Option Int :=
  let tail_deviation := deviation_history_get_last s.deviation_history
  let s := { s with total_sum := s.total_sum - tail_deviation }
  let s := { s with total_sum := s.total_sum + deviation }
  let s :=
    if |tail_deviation| > s.max_deviation then
      { s with misses := s.misses - 1,
               out_of_sync_sum := s.out_of_sync_sum - tail_deviation }
    else s
  let s :=
    if |deviation| > s.max_deviation then
      { s with misses := s.misses + 1,
               out_of_sync_sum := s.out_of_sync_sum + deviation }
    else s
  let s := { s with deviation_history :=
               deviation_history_insert s.deviation_history deviation }
  if s.misses > s.half_history_size then
    (s, if s.misses = 0 then none else some (s.out_of_sync_sum.tdiv s.misses))
  else
    (s, some 0)

/-- more_than_half_reset from deviation_average.c.  Overwrites every
field of the sync state and returns 0.  history_size is the C unsigned
int capacity and allowed_deviation the C unsigned long threshold, hence
both are Nat. -/
def more_than_half_reset (s : Sync) (history_addr : List Int)
    (history_size : Nat) (allowed_deviation : Nat) : Sync × Int :=
  let _ := s
  ({ deviation_history := deviation_history_reset history_addr history_size,
     half_history_size := ((history_size / 2 : Nat) : Int),
     max_deviation := (allowed_deviation : Int),
     misses := 0,
     out_of_sync_sum := 0,
     total_sum := 0 }, 0)

/-- The state produced by more_than_half_reset (it does not depend on
the previous state, so we name it directly). -/
def resetState (history_addr : List Int) (history_size : Nat)
    (allowed_deviation : Nat) : Sync :=
  (more_than_half_reset default history_addr history_size allowed_deviation).1

/-- Reset on a freshly zero-initialized buffer of the given capacity. -/
def zeroResetState (capacity : Nat) (allowed_deviation : Nat) : Sync :=
  resetState (List.replicate capacity 0) capacity allowed_deviation

/-- The state after one process call (ignoring the returned value). -/
def stepState (s : Sync) (d : Int) : Sync :=
  (more_than_half_do_sync s d).1

/-- The state after processing a whole sequence of samples. -/
def runState (s : Sync) (ds : List Int) : Sync :=
  ds.foldl stepState s

/-- The sequence of values returned by processing a sequence of
samples. -/
def runOutputs (s : Sync) (ds : List Int) : List (Option Int) :=
  match ds with
  | [] => []
  | d :: rest => (more_than_half_do_sync s d).2 :: runOutputs (stepState s d) rest

/-- The state after a reset on a zero-initialized buffer of capacity C
with threshold T followed by processing the samples ds. -/
def finalState (C T : Nat) (ds : List Int) : Sync :=
  runState (zeroResetState C T) ds

/-- The current window contents: every slot of the history buffer. -/
def Sync.window (s : Sync) : List Int :=
  s.deviation_history.buffer

/-- Number (as an Int) of window entries whose absolute value exceeds
the threshold. -/
def missesOf (T : Int) (w : List Int) : Int :=
  (((w.filter fun x => decide (|x| > T)).length : Nat) : Int)

/-- Signed sum of the window entries whose absolute value exceeds the
threshold. -/
def outOfSyncSumOf (T : Int) (w : List Int) : Int :=
  (w.filter fun x => decide (|x| > T)).sum

/-- Characterization of the state produced by more_than_half_do_sync:
the history receives the new sample, the configuration fields are
untouched, and each aggregate is adjusted by the evicted entry's and
the new entry's contributions. -/
theorem more_than_half_do_sync_fst (s : Sync) (d : Int) :
    (more_than_half_do_sync s d).1 =
    { deviation_history := deviation_history_insert s.deviation_history d,
      half_history_size := s.half_history_size,
      max_deviation := s.max_deviation,
      misses := s.misses
        - (if |deviation_history_get_last s.deviation_history| > s.max_deviation
           then 1 else 0)
        + (if |d| > s.max_deviation then 1 else 0),
      out_of_sync_sum := s.out_of_sync_sum
        - (if |deviation_history_get_last s.deviation_history| > s.max_deviation
           then deviation_history_get_last s.deviation_history else 0)
        + (if |d| > s.max_deviation then d else 0),
      total_sum := s.total_sum - deviation_history_get_last s.deviation_history
        + d } := by
  unfold more_than_half_do_sync
  by_cases h1 : |deviation_history_get_last s.deviation_history| > s.max_deviation <;>
    by_cases h2 : |d| > s.max_deviation <;>
      simp [h1, h2] <;> split <;> simp

/-- The state after one process call, spelled out. -/
theorem stepState_eq (s : Sync) (d : Int) :
    stepState s d =
    { deviation_history := deviation_history_insert s.deviation_history d,
      half_history_size := s.half_history_size,
      max_deviation := s.max_deviation,
      misses := s.misses
        - (if |deviation_history_get_last s.deviation_history| > s.max_deviation
           then 1 else 0)
        + (if |d| > s.max_deviation then 1 else 0),
      out_of_sync_sum := s.out_of_sync_sum
        - (if |deviation_history_get_last s.deviation_history| > s.max_deviation
           then deviation_history_get_last s.deviation_history else 0)
        + (if |d| > s.max_deviation then d else 0),
      total_sum := s.total_sum - deviation_history_get_last s.deviation_history
        + d } :=
  more_than_half_do_sync_fst s d

/-- Characterization of the value returned by more_than_half_do_sync in
terms of the updated state. -/
theorem more_than_half_do_sync_snd (s : Sync) (d : Int) :
    (more_than_half_do_sync s d).2 =
      if (stepState s d).misses > (stepState s d).half_history_size then
        (if (stepState s d).misses = 0 then none
         else some ((stepState s d).out_of_sync_sum.tdiv (stepState s d).misses))
      else some 0 := by
  unfold stepState more_than_half_do_sync
  by_cases h1 : |deviation_history_get_last s.deviation_history| > s.max_deviation <;>
    by_cases h2 : |d| > s.max_deviation <;>
      simp [h1, h2] <;> split <;> simp_all

/-- Replacing one list entry adjusts the out-of-range count by the old
and new entries' contributions. -/
theorem missesOf_set (T x : Int) :
    ∀ (l : List Int) (i : Nat), i < l.length →
      missesOf T (l.set i x)
        = missesOf T l - (if |l.getD i 0| > T then 1 else 0)
          + (if |x| > T then 1 else 0) := by
  intro l
  induction l with
  | nil => intro i hi; simp at hi
  | cons a t ih =>
    intro i hi
    cases i with
    | zero =>
      by_cases ha : |a| > T <;> by_cases hx : |x| > T <;>
        simp [missesOf, List.filter_cons, ha, hx]
    | succ j =>
      have hj : j < t.length := by simpa using hi
      have hrec := ih j hj
      by_cases ha : |a| > T <;>
        simp [missesOf, List.filter_cons, ha, List.getD_cons_succ] at hrec ⊢ <;>
        omega

/-- Replacing one list entry adjusts the out-of-range sum by the old
and new entries' contributions. -/
theorem outOfSyncSumOf_set (T x : Int) :
    ∀ (l : List Int) (i : Nat), i < l.length →
      outOfSyncSumOf T (l.set i x)
        = outOfSyncSumOf T l - (if |l.getD i 0| > T then l.getD i 0 else 0)
          + (if |x| > T then x else 0) := by
  intro l
  induction l with
  | nil => intro i hi; simp at hi
  | cons a t ih =>
    intro i hi
    cases i with
    | zero =>
      by_cases ha : |a| > T <;> by_cases hx : |x| > T <;>
        simp [outOfSyncSumOf, List.filter_cons, ha, hx] <;> ring
    | succ j =>
      have hj : j < t.length := by simpa using hi
      have hrec := ih j hj
      by_cases ha : |a| > T <;>
        simp [outOfSyncSumOf, List.filter_cons, ha, List.getD_cons_succ] at hrec ⊢ <;>
        omega

/-- Replacing one list entry adjusts the total sum by the old and new
entries' contributions. -/
theorem window_sum_set (x : Int) :
    ∀ (l : List Int) (i : Nat), i < l.length →
      (l.set i x).sum = l.sum - l.getD i 0 + x := by
  intro l
  induction l with
  | nil => intro i hi; simp at hi
  | cons a t ih =>
    intro i hi
    cases i with
    | zero => simp; ring
    | succ j =>
      have hj : j < t.length := by simpa using hi
      simp [ih j hj]
      ring

/-- The representation invariant tying the aggregate counters of a sync
state to its window contents. -/
def SyncInv (s : Sync) : Prop :=
  s.deviation_history.buffer.length = s.deviation_history.size ∧
  1 ≤ s.deviation_history.size ∧
  s.deviation_history.cursor < s.deviation_history.size ∧
  s.misses = missesOf s.max_deviation s.window ∧
  s.out_of_sync_sum = outOfSyncSumOf s.max_deviation s.window ∧
  s.total_sum = s.window.sum

/-- One process call preserves the representation invariant. -/
theorem stepState_inv (s : Sync) (d : Int) (h : SyncInv s) :
    SyncInv (stepState s d) := by
  obtain ⟨hlen, hsz, hcur, hm, ho, ht⟩ := h
  have hcl : s.deviation_history.cursor < s.deviation_history.buffer.length := by
    omega
  rw [stepState_eq]
  refine ⟨?_, hsz, ?_, ?_, ?_, ?_⟩
  · simpa [deviation_history_insert] using hlen
  · simp only [deviation_history_insert]
    exact Nat.mod_lt _ (by omega)
  · show (s.misses
        - if |s.deviation_history.buffer.getD s.deviation_history.cursor 0|
            > s.max_deviation then 1 else 0)
        + (if |d| > s.max_deviation then 1 else 0)
      = missesOf s.max_deviation
          (s.deviation_history.buffer.set s.deviation_history.cursor d)
    rw [missesOf_set s.max_deviation d s.deviation_history.buffer
      s.deviation_history.cursor hcl, hm]
    rfl
  · show (s.out_of_sync_sum
        - if |s.deviation_history.buffer.getD s.deviation_history.cursor 0|
            > s.max_deviation
          then s.deviation_history.buffer.getD s.deviation_history.cursor 0
          else 0)
        + (if |d| > s.max_deviation then d else 0)
      = outOfSyncSumOf s.max_deviation
          (s.deviation_history.buffer.set s.deviation_history.cursor d)
    rw [outOfSyncSumOf_set s.max_deviation d s.deviation_history.buffer
      s.deviation_history.cursor hcl, ho]
    rfl
  · show s.total_sum - s.deviation_history.buffer.getD s.deviation_history.cursor 0
        + d
      = (s.deviation_history.buffer.set s.deviation_history.cursor d).sum
    rw [window_sum_set d s.deviation_history.buffer
      s.deviation_history.cursor hcl, ht]
    rfl

/-- Zero samples are in range for a non-negative threshold, so a
zeroed window has no out-of-range entries. -/
theorem filter_replicate_zero (T : Int) (hT : 0 ≤ T) (n : Nat) :
    (List.replicate n (0 : Int)).filter (fun x => decide (|x| > T)) = [] := by
  have hz : ¬(|(0 : Int)| > T) := by
    rw [abs_zero]
    omega
  induction n with
  | zero => rfl
  | succ k ih => simp [List.replicate_succ, List.filter_cons, hz, ih, hT]

/-- After a reset on a zero-initialized buffer of positive capacity,
the representation invariant holds. -/
theorem zeroResetState_inv (C T : Nat) (hC : 1 ≤ C) :
    SyncInv (zeroResetState C T) := by
  refine ⟨?_, ?_, ?_, ?_, ?_, ?_⟩ <;>
    simp [zeroResetState, resetState, more_than_half_reset,
      deviation_history_reset, Sync.window, missesOf, outOfSyncSumOf,
      filter_replicate_zero (T : Int) (by positivity) C, hC] <;> omega

/-- Processing any sequence of samples preserves the representation
invariant. -/
theorem runState_inv (ds : List Int) :
    ∀ s : Sync, SyncInv s → SyncInv (runState s ds) := by
  induction ds with
  | nil => intro s h; exact h
  | cons d rest ih => intro s h; exact ih (stepState s d) (stepState_inv s d h)

/-- A process call never changes the configuration fields or the
history capacity. -/
theorem stepState_config (s : Sync) (d : Int) :
    (stepState s d).max_deviation = s.max_deviation ∧
    (stepState s d).half_history_size = s.half_history_size ∧
    (stepState s d).deviation_history.size = s.deviation_history.size := by
  rw [stepState_eq]
  exact ⟨rfl, rfl, rfl⟩

/-- Processing a sequence never changes the configuration fields or
the history capacity. -/
theorem runState_config (ds : List Int) :
    ∀ s : Sync,
      (runState s ds).max_deviation = s.max_deviation ∧
      (runState s ds).half_history_size = s.half_history_size ∧
      (runState s ds).deviation_history.size = s.deviation_history.size := by
  induction ds with
  | nil => intro s; exact ⟨rfl, rfl, rfl⟩
  | cons d rest ih =>
    intro s
    obtain ⟨h1, h2, h3⟩ := ih (stepState s d)
    obtain ⟨g1, g2, g3⟩ := stepState_config s d
    exact ⟨h1.trans g1, h2.trans g2, h3.trans g3⟩

/-- The configuration of the state reached from a zeroed reset. -/
theorem finalState_config (C T : Nat) (ds : List Int) :
    (finalState C T ds).max_deviation = (T : Int) ∧
    (finalState C T ds).half_history_size = ((C / 2 : Nat) : Int) ∧
    (finalState C T ds).deviation_history.size = C := by
  obtain ⟨h1, h2, h3⟩ := runState_config ds (zeroResetState C T)
  exact ⟨h1, h2, h3⟩

/-- The representation invariant holds in every state reached from a
zeroed reset. -/
theorem finalState_inv (C T : Nat) (hC : 1 ≤ C) (ds : List Int) :
    SyncInv (finalState C T ds) :=
  runState_inv ds (zeroResetState C T) (zeroResetState_inv C T hC)

/-- Claim C1: for every capacity C >= 1, every non-negative threshold,
and every sample sequence processed after a reset on a zero-initialized
buffer, misses equals the number of window entries whose absolute value
exceeds max_deviation, out_of_sync_sum equals their signed sum,
total_sum equals the signed sum of the whole window, and
0 <= misses <= C. -/
theorem c1_invariant_maintenance (C T : Nat) (hC : 1 ≤ C) (ds : List Int) :
    (finalState C T ds).misses
        = missesOf (finalState C T ds).max_deviation (finalState C T ds).window ∧
    (finalState C T ds).out_of_sync_sum
        = outOfSyncSumOf (finalState C T ds).max_deviation
            (finalState C T ds).window ∧
    (finalState C T ds).total_sum = (finalState C T ds).window.sum ∧
    0 ≤ (finalState C T ds).misses ∧
    (finalState C T ds).misses ≤ (C : Int) := by
  obtain ⟨hlen, hsz, hcur, hm, ho, ht⟩ := finalState_inv C T hC ds
  refine ⟨hm, ho, ht, ?_, ?_⟩
  · rw [hm]
    exact Int.natCast_nonneg _
  · rw [hm]
    have hlen2 : (finalState C T ds).window.length = C := by
      have hsizeC := (finalState_config C T ds).2.2
      rw [Sync.window]
      omega
    have hle := List.length_filter_le
      (fun x => decide (|x| > (finalState C T ds).max_deviation))
      (finalState C T ds).window
    have hfin : ((finalState C T ds).window.filter
        (fun x => decide (|x| > (finalState C T ds).max_deviation))).length ≤ C := by
      omega
    simp only [missesOf]
    exact_mod_cast hfin

/-- Witness for claim C1 at capacity 4, threshold 10, samples
5, 30, -40, 2. -/
theorem c1_invariant_maintenance_witness :
    (finalState 4 10 [5, 30, -40, 2]).misses
        = missesOf (finalState 4 10 [5, 30, -40, 2]).max_deviation
            (finalState 4 10 [5, 30, -40, 2]).window ∧
    (finalState 4 10 [5, 30, -40, 2]).out_of_sync_sum
        = outOfSyncSumOf (finalState 4 10 [5, 30, -40, 2]).max_deviation
            (finalState 4 10 [5, 30, -40, 2]).window ∧
    (finalState 4 10 [5, 30, -40, 2]).total_sum
        = (finalState 4 10 [5, 30, -40, 2]).window.sum ∧
    0 ≤ (finalState 4 10 [5, 30, -40, 2]).misses ∧
    (finalState 4 10 [5, 30, -40, 2]).misses ≤ (4 : Int) :=
  c1_invariant_maintenance 4 10 (by decide) [5, 30, -40, 2]

/-- Claim C8: process never divides by zero - whenever
half_history_size is non-negative (which reset guarantees), the
division branch is only reached with misses >= 1, so the call always
produces a value (the division-by-zero outcome none is unreachable). -/
theorem c8_no_division_by_zero (s : Sync) (d : Int)
    (hhalf : 0 ≤ s.half_history_size) :
    ((more_than_half_do_sync s d).2).isSome = true := by
  rw [more_than_half_do_sync_snd]
  have hcfg : (stepState s d).half_history_size = s.half_history_size :=
    (stepState_config s d).2.1
  by_cases hgt : (stepState s d).misses > (stepState s d).half_history_size
  · have h0 : 0 ≤ (stepState s d).half_history_size := by omega
    have hne : (stepState s d).misses ≠ 0 := by omega
    simp [hgt, hne]
  · simp [hgt]

/-- Witness for claim C8 at the freshly reset state with capacity 2,
threshold 0, sample 7. -/
theorem c8_no_division_by_zero_witness :
    ((more_than_half_do_sync (zeroResetState 2 0) 7).2).isSome = true :=
  c8_no_division_by_zero (zeroResetState 2 0) 7 (by decide)

/-- Claim C9: more_than_half_reset always succeeds (returns 0) and
leaves half_history_size = capacity / 2 (floor), max_deviation equal
to the given threshold, and zeroed aggregates. -/
theorem c9_reset_effect (s : Sync) (b : List Int) (C T : Nat) :
    (more_than_half_reset s b C T).2 = 0 ∧
    (more_than_half_reset s b C T).1.half_history_size = ((C / 2 : Nat) : Int) ∧
    (more_than_half_reset s b C T).1.max_deviation = (T : Int) ∧
    (more_than_half_reset s b C T).1.misses = 0 ∧
    (more_than_half_reset s b C T).1.out_of_sync_sum = 0 ∧
    (more_than_half_reset s b C T).1.total_sum = 0 :=
  ⟨rfl, rfl, rfl, rfl, rfl, rfl⟩

/-- Claim C10: a process call never modifies the configuration fields
max_deviation and half_history_size. -/
theorem c10_process_preserves_config (s : Sync) (d : Int) :
    (stepState s d).max_deviation = s.max_deviation ∧
    (stepState s d).half_history_size = s.half_history_size :=
  ⟨(stepState_config s d).1, (stepState_config s d).2.1⟩

/-- Appending one more sample to a run is one more process call. -/
theorem finalState_append_one (C T : Nat) (ds : List Int) (d : Int) :
    stepState (finalState C T ds) d = finalState C T (ds ++ [d]) := by
  simp [finalState, runState]

/-- Claim C2: whenever, after the eviction/insertion updates of a
process call, strictly more than floor(C/2) samples in the current
window exceed the threshold in absolute value, that call returns the
truncating integer-division average of exactly the out-of-range
window samples. -/
theorem c2_correction_correctness (C T : Nat) (hC : 1 ≤ C) (ds : List Int)
    (d : Int)
    (hmaj : ((C / 2 : Nat) : Int)
        < missesOf (T : Int) ((stepState (finalState C T ds) d).window)) :
    (more_than_half_do_sync (finalState C T ds) d).2
      = some (Int.tdiv
          (outOfSyncSumOf (T : Int) ((stepState (finalState C T ds) d).window))
          (missesOf (T : Int) ((stepState (finalState C T ds) d).window))) := by
  rw [more_than_half_do_sync_snd, finalState_append_one]
  rw [finalState_append_one] at hmaj
  obtain ⟨hlen, hsz, hcur, hm, ho, ht⟩ := finalState_inv C T hC (ds ++ [d])
  obtain ⟨hmax, hhalf, hsize⟩ := finalState_config C T (ds ++ [d])
  rw [hmax] at hm ho
  have hgt : (finalState C T (ds ++ [d])).half_history_size
      < (finalState C T (ds ++ [d])).misses := by
    rw [hm, hhalf]
    exact hmaj
  have h0 : (0 : Int) ≤ (finalState C T (ds ++ [d])).half_history_size := by
    rw [hhalf]
    exact Int.natCast_nonneg _
  have hne : (finalState C T (ds ++ [d])).misses ≠ 0 := by omega
  rw [if_pos hgt, if_neg hne, hm, ho]

/-- Witness for claim C2: the fifth call of the worked example. -/
theorem c2_correction_correctness_witness :
    (more_than_half_do_sync (finalState 4 10 [5, 30, -40, 2]) 50).2
      = some (Int.tdiv
          (outOfSyncSumOf (10 : Int)
            ((stepState (finalState 4 10 [5, 30, -40, 2]) 50).window))
          (missesOf (10 : Int)
            ((stepState (finalState 4 10 [5, 30, -40, 2]) 50).window))) :=
  c2_correction_correctness 4 10 (by decide) [5, 30, -40, 2] 50 (by decide)

/-- Claim C3: whenever, after the eviction/insertion updates of a
process call, at most floor(C/2) samples in the current window exceed
the threshold in absolute value, that call returns 0. -/
theorem c3_majority_rule (C T : Nat) (hC : 1 ≤ C) (ds : List Int) (d : Int)
    (hmin : missesOf (T : Int) ((stepState (finalState C T ds) d).window)
        ≤ ((C / 2 : Nat) : Int)) :
    (more_than_half_do_sync (finalState C T ds) d).2 = some 0 := by
  rw [more_than_half_do_sync_snd, finalState_append_one]
  rw [finalState_append_one] at hmin
  obtain ⟨hlen, hsz, hcur, hm, ho, ht⟩ := finalState_inv C T hC (ds ++ [d])
  obtain ⟨hmax, hhalf, hsize⟩ := finalState_config C T (ds ++ [d])
  rw [hmax] at hm
  have hle : ¬ (finalState C T (ds ++ [d])).half_history_size
      < (finalState C T (ds ++ [d])).misses := by
    rw [hm, hhalf]
    omega
  rw [if_neg hle]

/-- Witness for claim C3: the fourth call of the worked example. -/
theorem c3_majority_rule_witness :
    (more_than_half_do_sync (finalState 4 10 [5, 30, -40]) 2).2 = some 0 :=
  c3_majority_rule 4 10 (by decide) [5, 30, -40] 2 (by decide)

/-- Claim C4: the worked example - capacity 4, threshold 10, samples
5, 30, -40, 2 all return 0, leaving misses = 2, out_of_sync_sum = -10
and half_history_size = 2; a fifth sample 50 evicts the in-range
sample 5, yields misses = 3, and returns (30 - 40 + 50) / 3 = 13. -/
theorem c4_worked_example :
    runOutputs (zeroResetState 4 10) [5, 30, -40, 2]
        = [some 0, some 0, some 0, some 0] ∧
    (finalState 4 10 [5, 30, -40, 2]).misses = 2 ∧
    (finalState 4 10 [5, 30, -40, 2]).out_of_sync_sum = -10 ∧
    (finalState 4 10 [5, 30, -40, 2]).half_history_size = 2 ∧
    deviation_history_get_last
        (finalState 4 10 [5, 30, -40, 2]).deviation_history = 5 ∧
    (stepState (finalState 4 10 [5, 30, -40, 2]) 50).misses = 3 ∧
    (more_than_half_do_sync (finalState 4 10 [5, 30, -40, 2]) 50).2
        = some 13 := by
  decide

/-- Claim C5 as stated is false: with capacity 2 and threshold 0, after
processing 1 and -1 both samples are out of range, so the second call
ends with misses = 2 greater than half_history_size = 1, yet it returns
0 because the out-of-range samples cancel (0 / 2 = 0). -/
theorem c5_counterexample :
    (stepState (stepState (zeroResetState 2 0) 1) (-1)).half_history_size
        < (stepState (stepState (zeroResetState 2 0) 1) (-1)).misses ∧
    (more_than_half_do_sync (stepState (zeroResetState 2 0) 1) (-1)).2
        = some 0 := by
  decide

/-- Claim C5 amended: every process call ends in exactly one of two
caller-visible outcomes - when misses <= half_history_size it returns
0, and when misses > half_history_size it returns the truncating
division out_of_sync_sum / misses, a signed correction which is not
always nonzero (it is 0 when the out-of-range samples cancel). -/
theorem c5_two_outcomes (s : Sync) (d : Int) :
    (¬ (stepState s d).half_history_size < (stepState s d).misses →
      (more_than_half_do_sync s d).2 = some 0) ∧
    ((stepState s d).half_history_size < (stepState s d).misses →
      (stepState s d).misses ≠ 0 →
      (more_than_half_do_sync s d).2
        = some (Int.tdiv (stepState s d).out_of_sync_sum
            (stepState s d).misses)) := by
  constructor
  · intro h
    rw [more_than_half_do_sync_snd, if_neg h]
  · intro h hne
    rw [more_than_half_do_sync_snd, if_pos h, if_neg hne]

/-- Witness for the amended claim C5: an in-sync call and an
out-of-sync call of the worked example. -/
theorem c5_two_outcomes_witness :
    (more_than_half_do_sync (zeroResetState 4 10) 5).2 = some 0 ∧
    (more_than_half_do_sync (finalState 4 10 [5, 30, -40, 2]) 50).2
        = some (Int.tdiv (stepState (finalState 4 10 [5, 30, -40, 2]) 50).out_of_sync_sum
            (stepState (finalState 4 10 [5, 30, -40, 2]) 50).misses) :=
  ⟨(c5_two_outcomes (zeroResetState 4 10) 5).1 (by decide),
   (c5_two_outcomes (finalState 4 10 [5, 30, -40, 2]) 50).2 (by decide) (by decide)⟩

/-- Claim C6 as stated is false: reset rebinds the buffer without
clearing its contents, so a second run that resets the same instance
with the same (now leftover-filled) buffer produces different outputs.
With capacity 2, threshold 0, samples 3, 4: the first run returns
0 then 3, the rerun returns 0 then 0. -/
theorem c6_counterexample :
    runOutputs ((more_than_half_reset (finalState 2 0 [3, 4])
          ((finalState 2 0 [3, 4]).window) 2 0).1) [3, 4]
      ≠ runOutputs (zeroResetState 2 0) [3, 4] := by
  decide

/-- Claim C6 amended: the two runs produce identical output sequences
provided the buffer handed to the second reset again holds the same
contents as at the first reset (for instance because the caller
re-zeroes it); the outputs depend only on the buffer contents,
capacity and threshold given to reset, never on the instance's
previous state, which reset overwrites entirely. -/
theorem c6_reset_reproducibility (s1 s2 : Sync) (b : List Int) (C T : Nat)
    (ds : List Int) :
    runOutputs (more_than_half_reset s1 b C T).1 ds
      = runOutputs (more_than_half_reset s2 b C T).1 ds := rfl

/-- Folding a list of insertions into the history. -/
def insertAll (h : DeviationHistory) (ds : List Int) : DeviationHistory :=
  ds.foldl deviation_history_insert h

/-- Overwriting the slot at index c and taking one slot past it splits
the list at c. -/
theorem take_set_self (d : Int) :
    ∀ (b : List Int) (c : Nat), c < b.length →
      (b.set c d).take (c + 1) = b.take c ++ [d] := by
  intro b
  induction b with
  | nil => intro c hc; simp at hc
  | cons a t ih =>
    intro c hc
    cases c with
    | zero => simp
    | succ j =>
      have hj : j < t.length := by simpa using hc
      simp [List.set_cons_succ, ih j hj]

/-- Effect of a run of insertions that does not wrap past the end of
the buffer: the inserted samples occupy consecutive slots starting at
the initial cursor, and the cursor advances by the number of samples,
modulo the capacity. -/
theorem insertAll_spec :
    ∀ (ds : List Int) (b : List Int) (n c : Nat),
      b.length = n → c < n → c + ds.length ≤ n →
      insertAll ⟨b, n, c⟩ ds =
        ⟨b.take c ++ ds ++ b.drop (c + ds.length), n, (c + ds.length) % n⟩ := by
  intro ds
  induction ds with
  | nil =>
    intro b n c hlen hcur hle
    simp [insertAll, List.take_append_drop, Nat.mod_eq_of_lt hcur]
  | cons e rest ih =>
    intro b n c hlen hcur hle
    have hcb : c < b.length := by omega
    have hlencons : c + (rest.length + 1) ≤ n := by
      simpa using hle
    have hstep : insertAll ⟨b, n, c⟩ (e :: rest)
        = insertAll ⟨b.set c e, n, (c + 1) % n⟩ rest := by
      simp [insertAll, deviation_history_insert]
    rw [hstep]
    by_cases hwrap : c + 1 < n
    · have hmod : (c + 1) % n = c + 1 := Nat.mod_eq_of_lt hwrap
      rw [hmod]
      have hlen' : (b.set c e).length = n := by simp [hlen]
      have hle' : c + 1 + rest.length ≤ n := by omega
      rw [ih (b.set c e) n (c + 1) hlen' hwrap hle']
      have htake : (b.set c e).take (c + 1) = b.take c ++ [e] :=
        take_set_self e b c hcb
      have hdrop : (b.set c e).drop (c + 1 + rest.length)
          = b.drop (c + 1 + rest.length) := by
        rw [List.drop_set, if_pos (by omega)]
      rw [htake, hdrop]
      have harith : c + (rest.length + 1) = c + 1 + rest.length := by omega
      simp [harith]
    · have hend : c + 1 = n := by omega
      have hrlen : rest.length = 0 := by omega
      have hrest : rest = [] := List.length_eq_zero.mp hrlen
      subst hrest
      have hset : b.set c e = b.take c ++ e :: b.drop (c + 1) := by
        rw [List.set_eq_take_append_cons_drop, if_pos hcb]
      simp [insertAll, hset]

/-- Each process call performs exactly one insertion, so a run of
process calls inserts exactly the processed samples. -/
theorem runState_history (ds : List Int) :
    ∀ s : Sync,
      (runState s ds).deviation_history = insertAll s.deviation_history ds := by
  induction ds with
  | nil => intro s; rfl
  | cons d rest ih =>
    intro s
    have h1 : (stepState s d).deviation_history
        = deviation_history_insert s.deviation_history d := by
      rw [stepState_eq]
    calc (runState s (d :: rest)).deviation_history
        = (runState (stepState s d) rest).deviation_history := rfl
      _ = insertAll (stepState s d).deviation_history rest := ih _
      _ = insertAll (deviation_history_insert s.deviation_history d) rest := by
          rw [h1]
      _ = insertAll s.deviation_history (d :: rest) := rfl

/-- Claim C7: the history window is a strict FIFO ring - insert writes
at the cursor slot and advances the cursor modulo capacity, peek reads
the slot the next insert will overwrite, so starting from a reset with
capacity C >= 1, after C process-call insertions the next call reads
back as tail_deviation (and will overwrite) the sample inserted
first. -/
theorem c7_fifo_eviction (C T : Nat) (hC : 1 ≤ C) (ds : List Int)
    (hds : ds.length = C) :
    deviation_history_get_last (finalState C T ds).deviation_history
      = ds.getD 0 0 := by
  rw [finalState, runState_history]
  have hz : (zeroResetState C T).deviation_history
      = ⟨List.replicate C 0, C, 0⟩ := rfl
  rw [hz, insertAll_spec ds (List.replicate C 0) C 0 (by simp) (by omega)
    (by simp [hds])]
  simp [deviation_history_get_last, hds, Nat.mod_self]

/-- Witness for claim C7 at capacity 3: after inserting 7, 8, 9 the
next call would evict 7. -/
theorem c7_fifo_eviction_witness :
    deviation_history_get_last (finalState 3 1 [7, 8, 9]).deviation_history
      = 7 :=
  c7_fifo_eviction 3 1 (by decide) [7, 8, 9] (by decide)
